import Mathlib

/-!
A shallow embedding of the `link-crawler` repository (src/crawler.rs and
src/routes.rs) together with a model of the external URL-parsing collaborator
(the `url` crate), specified only through the interface the core needs
(spec section 6: ParseURL, HasHost, serialization, path replacement).

The crawler's own code — `listen`, `crawl_urls`, `crawl`,
`insert_unique_urls`, and the read-side `list`/`count` routes — is translated
function by function from the Rust source.  External effects (the HTTP fetch,
HTML parsing and anchor selection, the inbound channel) are parameters:
a `Page` value describes the outcome of fetching one URL, and the traversal
is parameterised by an oracle giving the outcome of each `crawl` invocation.

Rust `HashSet<String>` values are modelled as duplicate-free `List String`
in insertion order (the set's enumeration order is unspecified in Rust; the
model fixes one, which no claim depends on).  The shared
`Database = Mutex<HashMap<String, HashSet<String>>>` is modelled as the pure
map `Store`; each locked critical section of the source becomes one pure
function from store to store.
-/

namespace LinkCrawler

/-- Characters legal in the tail of a URL scheme (alphanumeric, `+`, `-`, `.`). -/
def schemeTailChar (c : Char) : Bool := c.isAlphanum || c == '+' || c == '-' || c == '.'

/-- A valid scheme: nonempty, leading ASCII letter, then scheme-tail characters. -/
def schemeOk : List Char → Bool
  | [] => false
  | c :: rest => c.isAlpha && rest.all schemeTailChar

/-- Characters that do not terminate the path component (`?` starts the query,
`#` starts the fragment). -/
def pqfChar (c : Char) : Bool := (c != '?') && (c != '#')

/-- Characters that do not terminate the authority component. -/
def authChar (c : Char) : Bool := (c != '/') && (c != '?') && (c != '#')

/-- Characters that may occur in a host: authority characters other than the
port separator `:`. -/
def hostChar (c : Char) : Bool := (c != ':') && authChar c

/-- Modelled from the spec: the absolute-URL components the external
ParseURL collaborator exposes to the core (scheme, optional host, optional
port, path, optional query, optional fragment).  Components are kept as
character lists; serialization re-assembles them. -/
structure Url where
  scheme : List Char
  host : Option (List Char)
  port : Option (List Char)
  path : List Char
  query : Option (List Char)
  fragment : Option (List Char)
deriving DecidableEq, Repr

/-- Splits a character list into path, query and fragment: the path runs to
the first `?` or `#`, the query from `?` to the first `#`, the fragment is
the remainder after `#`. -/
def parsePQF (cs : List Char) : List Char × Option (List Char) × Option (List Char) :=
  let path := cs.takeWhile pqfChar
  match cs.dropWhile pqfChar with
  | '?' :: r2 =>
      (path, some (r2.takeWhile (fun c => c != '#')),
        match r2.dropWhile (fun c => c != '#') with
        | '#' :: f => some f
        | _ => none)
  | '#' :: f => (path, none, some f)
  | _ => (path, none, none)

/-- Splits the port part off an authority (the characters after the first
`:`): absent gives no port, present requires a nonempty all-digit port. -/
def parsePort (auth : List Char) : Option (Option (List Char)) :=
  match auth.dropWhile (fun c => c != ':') with
  | [] => some none
  | _ :: ps => if !ps.isEmpty && ps.all Char.isDigit then some (some ps) else none

/-- Parsing of an authority part and what follows it: the authority runs to
the first `/`, `?` or `#`, splits into host and optional port at `:`, and
the remainder splits into path, query and fragment. -/
def parseAuthority (sch rest2 : List Char) : Option Url :=
  let auth := rest2.takeWhile authChar
  let afterAuth := rest2.dropWhile authChar
  let hostCs := auth.takeWhile (fun c => c != ':')
  if hostCs.isEmpty then none
  else
    match parsePort auth with
    | none => none
    | some port =>
      let (path, query, fragment) := parsePQF afterAuth
      some ⟨sch, some hostCs, port, path, query, fragment⟩

/-- The remainder of parsing after the scheme and its `:` were consumed:
`//` introduces an authority, anything else a host-less URL. -/
def parseAfterScheme (sch : List Char) : List Char → Option Url
  | '/' :: '/' :: rest2 => parseAuthority sch rest2
  | rest =>
    let (path, query, fragment) := parsePQF rest
    some ⟨sch, none, none, path, query, fragment⟩

/-- Modelled from the spec: `ParseURL(string) -> absolute URL components or
failure` (the external `url` crate collaborator).  A string with no scheme
(no `:` after a valid scheme name) is a relative reference and fails to
parse; `scheme://host[:port]path?query#fragment` yields its components, a
scheme without `//` yields a host-less URL (e.g. `mailto:`). -/
def Url.parseList (cs : List Char) : Option Url :=
  let sch := cs.takeWhile (fun c => c != ':')
  match cs.dropWhile (fun c => c != ':') with
  | [] => none
  | _ :: rest => if schemeOk sch then parseAfterScheme sch rest else none

/-- `Url::parse` of the external collaborator, on Lean strings. -/
def Url.parse (s : String) : Option Url := Url.parseList s.toList

/-- Serialization of an optional port (`:` followed by the digits). -/
def portSer : Option (List Char) → List Char
  | some p => ':' :: p
  | none => []

/-- Serialization of an optional query (`?` followed by the query). -/
def querySer : Option (List Char) → List Char
  | some q => '?' :: q
  | none => []

/-- Serialization of an optional fragment (`#` followed by the fragment). -/
def fragSer : Option (List Char) → List Char
  | some f => '#' :: f
  | none => []

/-- Serialization of a URL back to its character list. -/
def Url.serialize (u : Url) : List Char :=
  u.scheme ++ ':' ::
    ((match u.host with
      | some h => '/' :: '/' :: (h ++ portSer u.port)
      | none => []) ++
     u.path ++ querySer u.query ++ fragSer u.fragment)

/-- `Url::as_str` of the external collaborator: the serialized URL string. -/
def Url.as_str (u : Url) : String := u.serialize.asString

/-- Modelled from the spec: `Url::set_path` of the external collaborator —
"construct a new URL by replacing only the path component of the source URL
with the href value, keep scheme/host/port from the source" (spec section
4.1; a leading `/` is supplied when the href lacks one, as the spec's
example `http://example.com/a/b` + `c` = `http://example.com/c` requires). -/
def Url.set_path (u : Url) (link : String) : Url :=
  { u with path :=
      match link.toList with
      | '/' :: t => '/' :: t
      | cs => '/' :: cs }

/-- `HasHost` of the external collaborator (`Url::has_host`). -/
def Url.has_host (u : Url) : Bool := u.host.isSome

/-- Inserts an element into a Rust `HashSet` modelled as a duplicate-free
list in insertion order. -/
def insertSet (s : List String) (x : String) : List String :=
  if x ∈ s then s else s ++ [x]

/-- The outcome of fetching one URL, as the core observes it through its
external collaborators: whether `reqwest::get` succeeded, whether the status
was a success, whether the body could be read, whether the anchor selector
could be constructed, and the `href` attributes (possibly missing) of the
anchors found in the parsed document.  (`Html::parse_document` is infallible
in the source, so HTML parsing itself contributes no failure flag.) -/
structure Page where
  got : Bool
  status_success : Bool
  text_ok : Bool
  selector_ok : Bool
  hrefs : List (Option String)
deriving Repr

/-- The body of the `filter_map` closure of `crawl` (src/crawler.rs lines
81-102), processing one anchor's `href` value.  Returns the URL string kept
for this anchor (if any) together with the updated `url_parsed` scratch
value (the source mutates `url_parsed` in place on the relative branch). -/
def process_href (host : String) (url_parsed : Url) (link : String) : Option String × Url :=
  match Url.parse link with
  | some link_parsed =>
      match link_parsed.host with
      | none => (none, url_parsed)
      | some h =>
          if host.toList ≠ h then (none, url_parsed)
          else (some link_parsed.as_str, url_parsed)
  | none =>
      let up := url_parsed.set_path link
      (some up.as_str, up)

/-- Folding step collecting the kept URLs of all anchors into the `urls`
hash set while threading the mutable `url_parsed`. -/
def crawl_step (host : String) (st : Url × List String) (href : Option String) : Url × List String :=
  match href with
  | none => st
  | some link =>
      match process_href host st.1 link with
      | (none, up) => (up, st.2)
      | (some s, up) => (up, insertSet st.2 s)

/-- `crawl` (src/crawler.rs lines 65-108): fetches `url` (the fetch outcome
is the `page` parameter), and on success collects all same-host links of the
document plus the fetched URL itself; any fetch/read/selector failure, or an
unparsable `url`, yields `none`. -/
def crawl (host : String) (url : String) (page : Page) : Option (List String) :=
  if !page.got then none
  else
    match Url.parse url with
    | none => none
    | some url_parsed =>
      if !page.status_success then none
      else if !page.text_ok then none
      else if !page.selector_ok then none
      else
        some (insertSet (page.hrefs.foldl (crawl_step host) (url_parsed, [])).2 url)

/-- The shared database: hostname to the set of known URLs (the Rust
`HashMap<String, HashSet<String>>` behind the mutex). -/
abbrev Store := String → Option (List String)

/-- Map update (`HashMap::insert` at one key). -/
def Store.set (db : Store) (host : String) (v : List String) : Store :=
  fun k => if k = host then some v else db k

/-- `list` (src/routes.rs lines 10-25), the Ok branch: the stored set for a
domain as a vector, empty if the domain was never crawled. -/
def Store.list (db : Store) (domain : String) : List String :=
  match db domain with
  | some set => set
  | none => []

/-- `count` (src/routes.rs lines 27-41), the Ok branch: the size of the
stored set for a domain, zero if the domain was never crawled. -/
def Store.count (db : Store) (domain : String) : Nat :=
  match db domain with
  | some set => set.length
  | none => 0

/-- `insert_unique_urls` (src/crawler.rs lines 111-144): one critical
section under the database lock.  Returns the candidates that were new for
`host` together with the updated store.  The candidate hash set is the list
`crawled_urls` (its `drain` enumeration order). -/
def insert_unique_urls (master : Store) (crawled_urls : List String) (host : String) :
    List String × Store :=
  match master host with
  | some set =>
      let folded := crawled_urls.foldl
        (fun (p : List String × List String) url =>
          if url ∈ p.1 then p else (p.1 ++ [url], p.2 ++ [url]))
        (set, [])
      (folded.2, master.set host folded.1)
  | none => (crawled_urls, master.set host crawled_urls)

/-- Per one request, the crawler will visit at most N websites
(src/crawler.rs line 8). -/
def MAX_LINKS_CRAWLED_PER_REQUEST : Nat := 16

/-- The loop of `crawl_urls` (src/crawler.rs lines 45-60).  `crawlFn` is the
oracle giving the outcome of each `crawl` invocation (indexed by the counter
value at that iteration and the fetched URL); the returned `Nat` counts the
`crawl` invocations performed.  The extra `fuel` argument makes the
recursion structural; `crawl_urls_go_fuel_irrelevant` below shows it never
cuts the loop short when it starts at `MAX_LINKS_CRAWLED_PER_REQUEST + 1`,
so the loop's exit is decided by the source's own guard
(`queue.len() == 0 || counter > MAX_LINKS_CRAWLED_PER_REQUEST`). -/
def crawl_urls_go (crawlFn : Nat → String → Option (List String)) (host : String) :
    Nat → Nat → List String → Store → Store × Nat
  | 0, _, _, master => (master, 0)
  | fuel + 1, counter, queue, master =>
    match queue with
    | [] => (master, 0)
    | _ :: _ =>
      if counter + 1 > MAX_LINKS_CRAWLED_PER_REQUEST then (master, 0)
      else
        match crawlFn (counter + 1) queue.getLast! with
        | some crawled_urls =>
            let ins := insert_unique_urls master crawled_urls host
            let r := crawl_urls_go crawlFn host fuel (counter + 1) (queue.dropLast ++ ins.1) ins.2
            (r.1, r.2 + 1)
        | none =>
            let r := crawl_urls_go crawlFn host fuel (counter + 1) queue.dropLast master
            (r.1, r.2 + 1)

/-- `crawl_urls` (src/crawler.rs lines 41-61): counter starts at 0, the
frontier starts as the singleton seed. -/
def crawl_urls (crawlFn : Nat → String → Option (List String)) (master : Store)
    (url : String) (host : String) : Store × Nat :=
  crawl_urls_go crawlFn host (MAX_LINKS_CRAWLED_PER_REQUEST + 1) 0 [url] master

/-- One iteration of `listen` (src/crawler.rs lines 14-36): `message` is the
result of `consumer.recv()` (`none` models a receive error, which is logged
and skipped).  A message that fails URL parsing or has no host is discarded;
otherwise the traversal runs synchronously on the re-serialized URL and its
host string. -/
def listen_step (crawlFn : Nat → String → Option (List String)) (db : Store)
    (message : Option String) : Store :=
  match message with
  | none => db
  | some msg =>
    match (Url.parse msg).filter Url.has_host with
    | some url => (crawl_urls crawlFn db url.as_str (url.host.getD []).asString).1
    | none => db

/-- The operations that touch the shared store: the traversal's insert
(src/crawler.rs lines 111-144) and the read-side `list` and `count` routes
(src/routes.rs), which only read under the lock and leave the map as it
was. -/
inductive StoreOp where
  | ins (crawled_urls : List String) (host : String)
  | listQ (domain : String)
  | countQ (domain : String)

/-- Effect of one store operation on the shared map. -/
def StoreOp.apply (db : Store) : StoreOp → Store
  | .ins urls host => (insert_unique_urls db urls host).2
  | .listQ _ => db
  | .countQ _ => db

lemma mem_insertSet {s : List String} {x y : String} (h : y ∈ insertSet s x) :
    y ∈ s ∨ y = x := by
  unfold insertSet at h
  split at h
  · exact Or.inl h
  · rcases List.mem_append.1 h with h' | h'
    · exact Or.inl h'
    · exact Or.inr (List.mem_singleton.1 h')

/-- The fold at the heart of `insert_unique_urls`'s already-crawled branch:
starting from the stored set `a` and the new-url accumulator `b`, draining a
duplicate-free candidate list appends exactly the candidates absent from `a`
to both components. -/
lemma insert_fold_eq (S : List String) (a b : List String) (hnd : S.Nodup) :
    S.foldl
        (fun (p : List String × List String) url =>
          if url ∈ p.1 then p else (p.1 ++ [url], p.2 ++ [url]))
        (a, b) =
      (a ++ S.filter (fun u => decide (u ∉ a)), b ++ S.filter (fun u => decide (u ∉ a))) := by
  induction S generalizing a b with
  | nil => simp
  | cons u rest ih =>
    rcases List.nodup_cons.1 hnd with ⟨hu, hrest⟩
    by_cases hmem : u ∈ a
    · simp only [List.foldl_cons, if_pos hmem, List.filter_cons,
        decide_eq_true_eq, hmem, not_true_eq_false, decide_False, Bool.false_eq_true,
        if_false]
      exact ih a b hrest
    · simp only [List.foldl_cons, if_neg hmem, List.filter_cons, decide_eq_true_eq, hmem,
        not_false_eq_true, decide_True, if_true, iff_false, if_false]
      rw [ih (a ++ [u]) (b ++ [u]) hrest]
      have hfe : rest.filter (fun v => decide (v ∉ a ++ [u])) =
          rest.filter (fun v => decide (v ∉ a)) := by
        apply List.filter_congr
        intro x hx
        have hxu : x ≠ u := fun hxe => hu (hxe ▸ hx)
        simp [List.mem_append, hxu]
      rw [hfe]
      simp [List.append_assoc]

/-- C1: `insert_unique_urls` returns exactly the candidates absent from the
stored set for `host` before the call (all of them when `host` has no set),
afterwards the stored set for `host` is the union of its previous contents
and the candidates, and inserting the same fresh candidate twice reports it
new only the first time, growing `count(host)` by exactly 1 over both
calls. -/
theorem c1_insert_unique_urls_spec (master : Store) (S : List String) (host : String)
    (hnd : S.Nodup) :
    (insert_unique_urls master S host).1 =
        S.filter (fun u => decide (u ∉ Store.list master host)) ∧
    (master host = none → (insert_unique_urls master S host).1 = S) ∧
    (∀ x, x ∈ Store.list (insert_unique_urls master S host).2 host ↔
        x ∈ Store.list master host ∨ x ∈ S) ∧
    (∀ u, u ∉ Store.list master host →
      (insert_unique_urls master [u] host).1 = [u] ∧
      (insert_unique_urls (insert_unique_urls master [u] host).2 [u] host).1 = [] ∧
      Store.count (insert_unique_urls (insert_unique_urls master [u] host).2 [u] host).2 host =
        Store.count master host + 1 ∧
      Store.count (insert_unique_urls (insert_unique_urls master [u] host).2 [u] host).2 host =
        Store.count (insert_unique_urls master [u] host).2 host) := by
  refine ⟨?_, ?_, ?_, ?_⟩
  · cases hm : master host with
    | none =>
      simp only [insert_unique_urls, hm, Store.list]
      rw [eq_comm, List.filter_eq_self]
      intro a _
      simp
    | some set =>
      simp only [insert_unique_urls, hm, insert_fold_eq S set [] hnd, Store.list,
        List.nil_append]
  · intro hm
    simp only [insert_unique_urls, hm]
  · intro x
    cases hm : master host with
    | none =>
      simp only [insert_unique_urls, hm, Store.list, Store.set, if_pos rfl]
      simp
    | some set =>
      simp only [insert_unique_urls, hm, insert_fold_eq S set [] hnd, Store.list,
        Store.set, if_pos rfl]
      constructor
      · intro hx
        rcases List.mem_append.1 hx with hx | hx
        · exact Or.inl hx
        · exact Or.inr (List.mem_filter.1 hx).1
      · intro hx
        rcases hx with hx | hx
        · exact List.mem_append.2 (Or.inl hx)
        · by_cases hset : x ∈ set
          · exact List.mem_append.2 (Or.inl hset)
          · refine List.mem_append.2 (Or.inr (List.mem_filter.2 ⟨hx, ?_⟩))
            simpa using hset
  · intro u hu
    cases hm : master host with
    | none =>
      simp only [Store.list, hm] at hu
      simp [insert_unique_urls, hm, Store.set, Store.count]
    | some set =>
      simp only [Store.list, hm] at hu
      simp [insert_unique_urls, hm, Store.set, Store.count, hu]

/-- Closed witness for C1 at a concrete store, candidate set and host. -/
theorem c1_insert_unique_urls_spec_witness :
    (["http://a.com/x", "http://a.com/y"] : List String).Nodup ∧
    (insert_unique_urls (fun _ => none) ["http://a.com/x", "http://a.com/y"] "a.com").1 =
      ["http://a.com/x", "http://a.com/y"].filter
        (fun u => decide (u ∉ Store.list (fun _ => none) "a.com")) := by
  have h := c1_insert_unique_urls_spec (fun _ => none) ["http://a.com/x", "http://a.com/y"]
    "a.com" (by decide)
  exact ⟨by decide, h.1⟩

lemma crawl_urls_go_fetch_bound (crawlFn : Nat → String → Option (List String)) (host : String)
    (fuel : Nat) :
    ∀ (counter : Nat) (queue : List String) (master : Store),
      (crawl_urls_go crawlFn host fuel counter queue master).2 ≤
        MAX_LINKS_CRAWLED_PER_REQUEST - counter := by
  induction fuel with
  | zero => intro counter queue master; simp [crawl_urls_go]
  | succ fuel ih =>
    intro counter queue master
    match queue with
    | [] => simp [crawl_urls_go]
    | q :: qs =>
      rw [crawl_urls_go]
      by_cases hc : counter + 1 > MAX_LINKS_CRAWLED_PER_REQUEST
      · simp [hc]
      · rw [if_neg hc]
        have hle : counter + 1 ≤ MAX_LINKS_CRAWLED_PER_REQUEST := by omega
        cases crawlFn (counter + 1) (q :: qs).getLast! with
        | some crawled_urls =>
          have := ih (counter + 1)
            ((q :: qs).dropLast ++ (insert_unique_urls master crawled_urls host).1)
            (insert_unique_urls master crawled_urls host).2
          simp only []
          omega
        | none =>
          have := ih (counter + 1) (q :: qs).dropLast master
          simp only []
          omega

/-- The structural `fuel` argument of `crawl_urls_go` is an artifact of the
embedding: any two fuel values at least `MAX_LINKS_CRAWLED_PER_REQUEST + 1 -
counter` produce the same result, so with the initial fuel of
`crawl_urls` the loop's exit is decided solely by the source's guard. -/
lemma crawl_urls_go_fuel_irrelevant (crawlFn : Nat → String → Option (List String))
    (host : String) (f : Nat) :
    ∀ (g counter : Nat) (queue : List String) (master : Store),
      MAX_LINKS_CRAWLED_PER_REQUEST + 1 - counter ≤ f →
      MAX_LINKS_CRAWLED_PER_REQUEST + 1 - counter ≤ g →
      crawl_urls_go crawlFn host f counter queue master =
        crawl_urls_go crawlFn host g counter queue master := by
  induction f with
  | zero =>
    intro g counter queue master hf hg
    have hbig : counter + 1 > MAX_LINKS_CRAWLED_PER_REQUEST := by omega
    cases g with
    | zero => rfl
    | succ g =>
      cases queue with
      | nil => simp [crawl_urls_go]
      | cons q qs => simp [crawl_urls_go, hbig]
  | succ f ih =>
    intro g counter queue master hf hg
    cases g with
    | zero =>
      have hbig : counter + 1 > MAX_LINKS_CRAWLED_PER_REQUEST := by omega
      cases queue with
      | nil => simp [crawl_urls_go]
      | cons q qs => simp [crawl_urls_go, hbig]
    | succ g =>
      cases queue with
      | nil => simp [crawl_urls_go]
      | cons q qs =>
        rw [crawl_urls_go, crawl_urls_go]
        by_cases hc : counter + 1 > MAX_LINKS_CRAWLED_PER_REQUEST
        · simp [hc]
        · rw [if_neg hc, if_neg hc]
          cases crawlFn (counter + 1) (q :: qs).getLast! with
          | some crawled_urls =>
            simp only []
            rw [ih g (counter + 1)
              ((q :: qs).dropLast ++ (insert_unique_urls master crawled_urls host).1)
              (insert_unique_urls master crawled_urls host).2 (by omega) (by omega)]
          | none =>
            simp only []
            rw [ih g (counter + 1) (q :: qs).dropLast master (by omega) (by omega)]

/-- C2: for every behaviour of the external fetch collaborator, the loop of
`crawl_urls` performs at most 16 (`MAX_LINKS_CRAWLED_PER_REQUEST`) `crawl`
fetches per request, and the loop terminates: the embedding is a total
function whose extra fuel never decides the exit (any fuel at least 17 gives
the same run), so the exit is decided by the counter passing the fixed
ceiling or the frontier emptying. -/
theorem c2_crawl_urls_bounded (crawlFn : Nat → String → Option (List String)) (master : Store)
    (url : String) (host : String) :
    (crawl_urls crawlFn master url host).2 ≤ MAX_LINKS_CRAWLED_PER_REQUEST ∧
    (∀ fuel, MAX_LINKS_CRAWLED_PER_REQUEST + 1 ≤ fuel →
      crawl_urls_go crawlFn host fuel 0 [url] master = crawl_urls crawlFn master url host) := by
  constructor
  · have := crawl_urls_go_fetch_bound crawlFn host (MAX_LINKS_CRAWLED_PER_REQUEST + 1) 0 [url]
      master
    simpa [crawl_urls] using this
  · intro fuel hfuel
    exact crawl_urls_go_fuel_irrelevant crawlFn host fuel (MAX_LINKS_CRAWLED_PER_REQUEST + 1) 0
      [url] master (by simpa using hfuel) (by simp)

/-- Closed witness for C2: a fetch collaborator that always reports two
fresh-looking links (so the frontier never empties) still performs at most
16 fetches, and a run with surplus fuel equals the canonical run. -/
theorem c2_crawl_urls_bounded_witness :
    (crawl_urls (fun n _ => some ["http://e.com/" ++ toString n, "http://e.com/x" ++ toString n])
        (fun _ => none) "http://e.com" "e.com").2 ≤ MAX_LINKS_CRAWLED_PER_REQUEST ∧
    crawl_urls_go
        (fun n _ => some ["http://e.com/" ++ toString n, "http://e.com/x" ++ toString n])
        "e.com" 25 0 ["http://e.com"] (fun _ => none) =
      crawl_urls (fun n _ => some ["http://e.com/" ++ toString n, "http://e.com/x" ++ toString n])
        (fun _ => none) "http://e.com" "e.com" := by
  have h := c2_crawl_urls_bounded
    (fun n _ => some ["http://e.com/" ++ toString n, "http://e.com/x" ++ toString n])
    (fun _ => none) "http://e.com" "e.com"
  exact ⟨h.1, h.2 25 (by decide)⟩

lemma insert_fold_extends (S : List String) (a b : List String) :
    ∃ c, (S.foldl
        (fun (p : List String × List String) url =>
          if url ∈ p.1 then p else (p.1 ++ [url], p.2 ++ [url]))
        (a, b)).1 = a ++ c := by
  induction S generalizing a b with
  | nil => exact ⟨[], by simp⟩
  | cons u rest ih =>
    by_cases hmem : u ∈ a
    · simpa [List.foldl_cons, if_pos hmem] using ih a b
    · rcases ih (a ++ [u]) (b ++ [u]) with ⟨c, hc⟩
      exact ⟨u :: c, by simp [List.foldl_cons, if_neg hmem, hc]⟩

lemma storeOp_apply_mono (op : StoreOp) (db : Store) (h : String) :
    Store.count db h ≤ Store.count (StoreOp.apply db op) h ∧
    (∀ x, x ∈ Store.list db h → x ∈ Store.list (StoreOp.apply db op) h) := by
  cases op with
  | listQ d => exact ⟨Nat.le_refl _, fun x hx => hx⟩
  | countQ d => exact ⟨Nat.le_refl _, fun x hx => hx⟩
  | ins urls host =>
    by_cases hkey : h = host
    · subst hkey
      cases hm : db h with
      | none =>
        constructor
        · simp [Store.count, hm]
        · intro x hx
          simp [Store.list, hm] at hx
      | some set =>
        rcases insert_fold_extends urls set [] with ⟨c, hc⟩
        simp only [StoreOp.apply, insert_unique_urls, hm, Store.count, Store.list, Store.set,
          if_pos rfl, hc]
        constructor
        · simp
        · intro x hx
          exact List.mem_append.2 (Or.inl hx)
    · simp only [StoreOp.apply]
      cases hm : db host with
      | none =>
        simp only [insert_unique_urls, hm, Store.count, Store.list, Store.set, if_neg hkey]
        exact ⟨Nat.le_refl _, fun x hx => hx⟩
      | some set =>
        simp only [insert_unique_urls, hm, Store.count, Store.list, Store.set, if_neg hkey]
        exact ⟨Nat.le_refl _, fun x hx => hx⟩

/-- C6: every store operation — the traversal's insert and the read-side
`list` and `count` — leaves each host's set of known URLs a superset of what
it was, so across any sequence of store operations the observed `count h`
never decreases and no URL or host set is ever removed. -/
theorem c6_store_monotone (ops : List StoreOp) (db : Store) (h : String) :
    Store.count db h ≤ Store.count (ops.foldl StoreOp.apply db) h ∧
    (∀ x, x ∈ Store.list db h → x ∈ Store.list (ops.foldl StoreOp.apply db) h) := by
  induction ops generalizing db with
  | nil => exact ⟨Nat.le_refl _, fun x hx => hx⟩
  | cons op rest ih =>
    rcases storeOp_apply_mono op db h with ⟨hcnt, hmem⟩
    rcases ih (StoreOp.apply db op) with ⟨hcnt', hmem'⟩
    exact ⟨Nat.le_trans hcnt (by simpa using hcnt'),
      fun x hx => by simpa using hmem' x (hmem x hx)⟩

/-- Closed witness for C6 on a concrete store and operation sequence. -/
theorem c6_store_monotone_witness :
    Store.count (Store.set (fun _ => none) "h.com" ["http://h.com/a"]) "h.com" ≤
      Store.count
        ([StoreOp.ins ["http://h.com/b"] "h.com", StoreOp.countQ "h.com",
            StoreOp.listQ "x.com"].foldl StoreOp.apply
          (Store.set (fun _ => none) "h.com" ["http://h.com/a"])) "h.com" ∧
    ("http://h.com/a" ∈
        Store.list (Store.set (fun _ => none) "h.com" ["http://h.com/a"]) "h.com" →
      "http://h.com/a" ∈
        Store.list
          ([StoreOp.ins ["http://h.com/b"] "h.com", StoreOp.countQ "h.com",
              StoreOp.listQ "x.com"].foldl StoreOp.apply
            (Store.set (fun _ => none) "h.com" ["http://h.com/a"])) "h.com") := by
  have h := c6_store_monotone
    [StoreOp.ins ["http://h.com/b"] "h.com", StoreOp.countQ "h.com", StoreOp.listQ "x.com"]
    (Store.set (fun _ => none) "h.com" ["http://h.com/a"]) "h.com"
  exact ⟨h.1, fun hx => h.2 _ hx⟩

/-- C7: every recoverable failure of one page — a failed fetch, a
non-success status, an unreadable body, or an unconstructible anchor
selector — makes `crawl` return `none` (HTML parsing itself is infallible
in the source, so it contributes no failure case), and on a `none` result
the traversal loop proceeds to the next iteration with the store it already
had, the failure never unwinding the loop. -/
theorem c7_recoverable_failures_skip (host url : String) (page : Page) :
    ((page.got = false ∨ page.status_success = false ∨ page.text_ok = false ∨
        page.selector_ok = false) →
      crawl host url page = none) ∧
    (∀ (crawlFn : Nat → String → Option (List String)) (fuel counter : Nat) (q : String)
        (qs : List String) (master : Store),
      counter + 1 ≤ MAX_LINKS_CRAWLED_PER_REQUEST →
      crawlFn (counter + 1) ((q :: qs).getLast!) = none →
      crawl_urls_go crawlFn host (fuel + 1) counter (q :: qs) master =
        ((crawl_urls_go crawlFn host fuel (counter + 1) (q :: qs).dropLast master).1,
          (crawl_urls_go crawlFn host fuel (counter + 1) (q :: qs).dropLast master).2 + 1)) := by
  constructor
  · intro hfail
    obtain ⟨g, st, t, sel, hr⟩ := page
    simp only [] at hfail
    rcases hfail with rfl | rfl | rfl | rfl
    · simp [crawl]
    · cases hp : Url.parse url with
      | none => simp [crawl, hp]
      | some up => cases g <;> simp [crawl, hp]
    · cases hp : Url.parse url with
      | none => simp [crawl, hp]
      | some up => cases g <;> cases st <;> simp [crawl, hp]
    · cases hp : Url.parse url with
      | none => simp [crawl, hp]
      | some up => cases g <;> cases st <;> cases t <;> simp [crawl, hp]
  · intro crawlFn fuel counter q qs master hle hnone
    rw [crawl_urls_go]
    have : ¬ counter + 1 > MAX_LINKS_CRAWLED_PER_REQUEST := by omega
    rw [if_neg this, hnone]

/-- Closed witness for C7: a page whose body read fails yields `none`, and
the loop carries the store through such an iteration unchanged. -/
theorem c7_recoverable_failures_skip_witness :
    crawl "example.com" "http://example.com" ⟨true, true, false, true, [some "x"]⟩ = none ∧
    crawl_urls_go (fun _ _ => none) "example.com" 17 0 ["http://example.com"] (fun _ => none) =
      ((crawl_urls_go (fun _ _ => none) "example.com" 16 1 [] (fun _ => none)).1,
        (crawl_urls_go (fun _ _ => none) "example.com" 16 1 [] (fun _ => none)).2 + 1) := by
  have h := c7_recoverable_failures_skip "example.com" "http://example.com"
    ⟨true, true, false, true, [some "x"]⟩
  refine ⟨h.1 (by simp), ?_⟩
  have h2 := h.2 (fun _ _ => none) 16 0 "http://example.com" [] (fun _ => none)
    (by decide) rfl
  simpa using h2

/-- C8: a received string that fails URL parsing, or parses to a URL with no
host component, is discarded by the intake loop: no traversal is invoked
(the step's result does not depend on the traversal oracle) and the store is
unchanged. -/
theorem c8_intake_discards_malformed (db : Store) (s : String)
    (h : Url.parse s = none ∨ ∃ u, Url.parse s = some u ∧ u.host = none) :
    ∀ crawlFn, listen_step crawlFn db (some s) = db := by
  intro crawlFn
  rcases h with hp | ⟨u, hp, hh⟩
  · simp [listen_step, hp, Option.filter]
  · simp [listen_step, hp, Option.filter, Url.has_host, hh]

/-- Closed witness for C8: a string with no scheme and one with a host-less
scheme are both discarded for an arbitrary concrete traversal oracle. -/
theorem c8_intake_discards_malformed_witness :
    listen_step (fun _ u => some [u]) (fun _ => none) (some "not a url") = (fun _ => none) ∧
    listen_step (fun _ u => some [u]) (fun _ => none) (some "mailto:me@example.com") =
      (fun _ => none) := by
  constructor
  · exact c8_intake_discards_malformed (fun _ => none) "not a url" (Or.inl (by decide))
      (fun _ u => some [u])
  · exact c8_intake_discards_malformed (fun _ => none) "mailto:me@example.com"
      (Or.inr ⟨⟨"mailto".toList, none, none, "me@example.com".toList, none, none⟩, by decide,
        rfl⟩) (fun _ u => some [u])

/-- Wellformedness of a URL value as the parser produces it: a valid scheme,
a nonempty host free of delimiter characters when present, a nonempty
all-digit port when present, a path that is empty or `/`-initial when a host
is present, and a query free of `#`. -/
def Url.WF (u : Url) : Prop :=
  schemeOk u.scheme = true ∧
  (∀ h, u.host = some h → h ≠ [] ∧ h.all hostChar = true) ∧
  (∀ p, u.port = some p → p ≠ [] ∧ p.all Char.isDigit = true) ∧
  (u.host.isSome = true → u.path = [] ∨ ∃ t, u.path = '/' :: t) ∧
  (∀ q, u.query = some q → q.all (fun c => c != '#') = true)

lemma isAlpha_ne_colon {c : Char} (h : c.isAlpha = true) : (c != ':') = true := by
  simp only [bne_iff_ne, ne_eq]
  rintro rfl
  exact absurd h (by decide)

lemma schemeTailChar_ne_colon {c : Char} (h : schemeTailChar c = true) : (c != ':') = true := by
  simp only [bne_iff_ne, ne_eq]
  rintro rfl
  exact absurd h (by decide)

lemma schemeOk_all_ne_colon {cs : List Char} (h : schemeOk cs = true) :
    ∀ c ∈ cs, (c != ':') = true := by
  cases cs with
  | nil => intro c hc; exact absurd hc (List.not_mem_nil c)
  | cons c0 rest =>
    simp only [schemeOk, Bool.and_eq_true, List.all_eq_true] at h
    intro c hc
    rcases List.mem_cons.1 hc with rfl | hc
    · exact isAlpha_ne_colon h.1
    · exact schemeTailChar_ne_colon (h.2 c hc)

lemma hostChar_split {c : Char} (h : hostChar c = true) :
    (c != ':') = true ∧ authChar c = true := by
  simpa [hostChar, Bool.and_eq_true] using h

lemma isDigit_authChar {c : Char} (h : c.isDigit = true) : authChar c = true := by
  simp only [authChar, Bool.and_eq_true, bne_iff_ne, ne_eq]
  refine ⟨⟨?_, ?_⟩, ?_⟩ <;> rintro rfl <;> exact absurd h (by decide)

lemma authChar_eq_false {c : Char} (h : authChar c = false) :
    c = '/' ∨ c = '?' ∨ c = '#' := by
  by_cases h1 : c = '/'
  · exact Or.inl h1
  by_cases h2 : c = '?'
  · exact Or.inr (Or.inl h2)
  by_cases h3 : c = '#'
  · exact Or.inr (Or.inr h3)
  rw [show authChar c = true by simp [authChar, bne_iff_ne, h1, h2, h3]] at h
  exact absurd h (by simp)

lemma pqfChar_eq_false {c : Char} (h : pqfChar c = false) : c = '?' ∨ c = '#' := by
  by_cases h2 : c = '?'
  · exact Or.inl h2
  by_cases h3 : c = '#'
  · exact Or.inr h3
  rw [show pqfChar c = true by simp [pqfChar, bne_iff_ne, h2, h3]] at h
  exact absurd h (by simp)

lemma dropWhile_shape (p : Char → Bool) (l : List Char) :
    l.dropWhile p = [] ∨ ∃ c t, l.dropWhile p = c :: t ∧ p c = false := by
  have h := List.head?_dropWhile_not p l
  rcases hd : l.dropWhile p with _ | ⟨c, t⟩
  · exact Or.inl rfl
  · right
    refine ⟨c, t, rfl, ?_⟩
    rw [hd] at h
    simpa using h

lemma parsePQF_path (cs : List Char) : (parsePQF cs).1 = cs.takeWhile pqfChar := by
  simp only [parsePQF]
  split <;> rfl

lemma parsePQF_query_all {cs q : List Char} (h : (parsePQF cs).2.1 = some q) :
    q.all (fun c => c != '#') = true := by
  simp only [parsePQF] at h
  split at h
  · simp only [Option.some.injEq] at h
    subst h
    refine List.all_eq_true.2 fun c hc => ?_
    have hc' := List.mem_takeWhile_imp hc
    exact hc'
  · exact absurd h (by simp)
  · exact absurd h (by simp)

lemma parsePort_spec {auth : List Char} {port : Option (List Char)}
    (h : parsePort auth = some port) :
    ∀ p, port = some p → p ≠ [] ∧ p.all Char.isDigit = true := by
  intro p hp
  subst hp
  unfold parsePort at h
  split at h
  · exact absurd h (by simp)
  · split at h
    · rename_i hguard
      simp only [Option.some.injEq] at h
      subst h
      simp only [Bool.and_eq_true, Bool.not_eq_true'] at hguard
      exact ⟨by simpa [List.isEmpty_iff] using hguard.1, hguard.2⟩
    · exact absurd h (by simp)

lemma parseAuthority_WF {sch rest2 : List Char} {u : Url} (hsch : schemeOk sch = true)
    (h : parseAuthority sch rest2 = some u) : u.WF := by
  simp only [parseAuthority] at h
  by_cases hemp : ((rest2.takeWhile authChar).takeWhile (fun c => c != ':')).isEmpty = true
  · rw [if_pos hemp] at h; exact absurd h (by simp)
  rw [if_neg hemp] at h
  split at h
  · exact absurd h (by simp)
  case' _ =>
    rename_i port hport
    simp only [Option.some.injEq] at h
    subst h
    refine ⟨hsch, ?_, ?_, ?_, ?_⟩
    · intro hh hcon
      simp only [Option.some.injEq] at hcon
      subst hcon
      constructor
      · intro hnil
        rw [hnil] at hemp
        exact hemp (by simp)
      · refine List.all_eq_true.2 fun c hc => ?_
        have hc1 := List.mem_takeWhile_imp hc
        have hc2 : c ∈ rest2.takeWhile authChar :=
          (List.takeWhile_sublist (fun c => c != ':')).subset hc
        have hc3 : authChar c = true := List.mem_takeWhile_imp hc2
        simp [hostChar, hc1, hc3]
    · exact fun p hcon => parsePort_spec hport p hcon
    · intro _
      rw [parsePQF_path]
      rcases dropWhile_shape authChar rest2 with hsh | ⟨c, t, hsh, hcf⟩ <;> rw [hsh]
      · exact Or.inl rfl
      rcases authChar_eq_false hcf with rfl | rfl | rfl
      · exact Or.inr ⟨t.takeWhile pqfChar, by rw [List.takeWhile_cons_of_pos (by decide)]⟩
      · exact Or.inl (by rw [List.takeWhile_cons_of_neg (by decide)])
      · exact Or.inl (by rw [List.takeWhile_cons_of_neg (by decide)])
    · intro q hq
      exact parsePQF_query_all hq

lemma parseAfterScheme_WF {sch rest : List Char} {u : Url} (hsch : schemeOk sch = true)
    (h : parseAfterScheme sch rest = some u) : u.WF := by
  unfold parseAfterScheme at h
  split at h
  · exact parseAuthority_WF hsch h
  · simp only [Option.some.injEq] at h
    subst h
    refine ⟨hsch, ?_, ?_, ?_, ?_⟩
    · intro hh hcon; exact absurd hcon (by simp)
    · intro p hcon; exact absurd hcon (by simp)
    · intro hcon; exact absurd hcon (by simp)
    · intro q hq
      exact parsePQF_query_all hq

lemma parseList_WF {cs : List Char} {u : Url} (h : Url.parseList cs = some u) : u.WF := by
  simp only [Url.parseList] at h
  split at h
  · exact absurd h (by simp)
  by_cases hsch : schemeOk (cs.takeWhile (fun c => c != ':')) = true
  swap
  · rw [if_neg hsch] at h; exact absurd h (by simp)
  rw [if_pos hsch] at h
  exact parseAfterScheme_WF hsch h

lemma portSer_authChar {po : Option (List Char)}
    (hpo : ∀ p, po = some p → p ≠ [] ∧ p.all Char.isDigit = true) :
    ∀ c ∈ portSer po, authChar c = true := by
  cases po with
  | none => intro c hc; exact absurd hc (List.not_mem_nil c)
  | some p =>
    intro c hc
    rcases List.mem_cons.1 hc with rfl | hc
    · decide
    · exact isDigit_authChar (List.all_eq_true.1 (hpo p rfl).2 c hc)

lemma parsePort_of_drop {auth : List Char} {po : Option (List Char)}
    (hd : auth.dropWhile (fun c => c != ':') = portSer po)
    (hpo : ∀ p, po = some p → p ≠ [] ∧ p.all Char.isDigit = true) :
    parsePort auth = some po := by
  unfold parsePort
  rw [hd]
  cases po with
  | none => rfl
  | some p =>
    rcases hpo p rfl with ⟨hne, hdig⟩
    simp [portSer, List.isEmpty_iff, hne, hdig]

lemma querySer_fragSer_shape (qu fr : Option (List Char)) :
    querySer qu ++ fragSer fr = [] ∨
      ∃ c t, querySer qu ++ fragSer fr = c :: t ∧ authChar c = false ∧ pqfChar c = false := by
  cases qu with
  | some q => exact Or.inr ⟨'?', q ++ fragSer fr, by simp [querySer], by decide, by decide⟩
  | none =>
    cases fr with
    | some f => exact Or.inr ⟨'#', f, by simp [querySer, fragSer], by decide, by decide⟩
    | none => exact Or.inl (by simp [querySer, fragSer])

lemma tail3_shape {path : List Char} (hpath : path = [] ∨ ∃ t, path = '/' :: t)
    (qu fr : Option (List Char)) :
    path ++ querySer qu ++ fragSer fr = [] ∨
      ∃ c t, path ++ querySer qu ++ fragSer fr = c :: t ∧ authChar c = false := by
  rcases hpath with rfl | ⟨t, rfl⟩
  · rcases querySer_fragSer_shape qu fr with hq | ⟨c, t, hq, ha, _⟩
    · exact Or.inl (by simpa using hq)
    · exact Or.inr ⟨c, t, by simpa using hq, ha⟩
  · exact Or.inr ⟨'/', t ++ querySer qu ++ fragSer fr, by simp, by decide⟩

lemma parseList_scheme_prefix {sch : List Char} (hsch : schemeOk sch = true)
    (body : List Char) :
    Url.parseList (sch ++ ':' :: body) = parseAfterScheme sch body := by
  have hschall := schemeOk_all_ne_colon hsch
  have h1 : (sch ++ ':' :: body).takeWhile (fun c => c != ':') = sch := by
    rw [List.takeWhile_append_of_pos hschall, List.takeWhile_cons_of_neg (by decide)]
    exact List.append_nil sch
  have h2 : (sch ++ ':' :: body).dropWhile (fun c => c != ':') = ':' :: body := by
    rw [List.dropWhile_append_of_pos hschall, List.dropWhile_cons_of_neg (by decide)]
  simp only [Url.parseList, h1, h2, hsch, if_true]

lemma parseAuthority_split {h pp tail3 : List Char} {po : Option (List Char)}
    (sch : List Char) (hne : h ≠ []) (hall : h.all hostChar = true)
    (hppser : pp = portSer po)
    (hpo : ∀ p, po = some p → p ≠ [] ∧ p.all Char.isDigit = true)
    (htail : tail3 = [] ∨ ∃ c t, tail3 = c :: t ∧ authChar c = false)
    {p1 : List Char} {q2 f2 : Option (List Char)}
    (hpq : parsePQF tail3 = (p1, q2, f2)) :
    parseAuthority sch ((h ++ pp) ++ tail3) = some ⟨sch, some h, po, p1, q2, f2⟩ := by
  subst hppser
  have hcolonall : ∀ c ∈ h, (c != ':') = true :=
    fun c hc => (hostChar_split (List.all_eq_true.1 hall c hc)).1
  have hauthall : ∀ c ∈ h ++ portSer po, authChar c = true := by
    intro c hc
    rcases List.mem_append.1 hc with hc | hc
    · exact (hostChar_split (List.all_eq_true.1 hall c hc)).2
    · exact portSer_authChar hpo c hc
  have ht1 : ((h ++ portSer po) ++ tail3).takeWhile authChar = h ++ portSer po := by
    rw [List.takeWhile_append_of_pos hauthall]
    rcases htail with rfl | ⟨c, t, rfl, hcf⟩
    · simp
    · rw [List.takeWhile_cons_of_neg (by simp [hcf])]
      exact List.append_nil _
  have ht2 : ((h ++ portSer po) ++ tail3).dropWhile authChar = tail3 := by
    rw [List.dropWhile_append_of_pos hauthall]
    rcases htail with rfl | ⟨c, t, rfl, hcf⟩
    · simp
    · rw [List.dropWhile_cons_of_neg (by simp [hcf])]
  have ht3 : (h ++ portSer po).takeWhile (fun c => c != ':') = h := by
    rw [List.takeWhile_append_of_pos hcolonall]
    cases po with
    | none => simp [portSer]
    | some p =>
      rw [show portSer (some p) = ':' :: p from rfl,
        List.takeWhile_cons_of_neg (by decide)]
      exact List.append_nil h
  have ht4 : (h ++ portSer po).dropWhile (fun c => c != ':') = portSer po := by
    rw [List.dropWhile_append_of_pos hcolonall]
    cases po with
    | none => simp [portSer]
    | some p =>
      rw [show portSer (some p) = ':' :: p from rfl,
        List.dropWhile_cons_of_neg (by decide)]
  have ht5 : parsePort (h ++ portSer po) = some po := parsePort_of_drop ht4 hpo
  simp only [parseAuthority, ht1, ht2, ht3, ht5, hpq]
  rw [if_neg (by simp [List.isEmpty_iff, hne])]

lemma parsePQF_clean {path : List Char} (hclean : path.all pqfChar = true)
    {qu fr : Option (List Char)}
    (hq : ∀ q, qu = some q → q.all (fun c => c != '#') = true) :
    parsePQF (path ++ querySer qu ++ fragSer fr) = (path, qu, fr) := by
  have hcleanall : ∀ c ∈ path, pqfChar c = true := List.all_eq_true.1 hclean
  have h1 : (path ++ querySer qu ++ fragSer fr).takeWhile pqfChar = path := by
    rw [List.append_assoc, List.takeWhile_append_of_pos hcleanall]
    rcases querySer_fragSer_shape qu fr with he | ⟨c, t, he, _, hpf⟩
    · rw [he]; simp
    · rw [he, List.takeWhile_cons_of_neg (by simp [hpf])]
      exact List.append_nil path
  have h2 : (path ++ querySer qu ++ fragSer fr).dropWhile pqfChar =
      querySer qu ++ fragSer fr := by
    rw [List.append_assoc, List.dropWhile_append_of_pos hcleanall]
    rcases querySer_fragSer_shape qu fr with he | ⟨c, t, he, _, hpf⟩
    · rw [he]; simp [he]
    · rw [he, List.dropWhile_cons_of_neg (by simp [hpf])]
  simp only [parsePQF, h1, h2]
  cases qu with
  | some q =>
    have hqall : ∀ c ∈ q, (c != '#') = true := List.all_eq_true.1 (hq q rfl)
    cases fr with
    | none =>
      rw [show querySer (some q) ++ fragSer none = '?' :: q from by simp [querySer, fragSer]]
      simp only []
      rw [List.takeWhile_eq_self_iff.2 hqall, List.dropWhile_eq_nil_iff.2 hqall]
    | some f =>
      rw [show querySer (some q) ++ fragSer (some f) = '?' :: (q ++ '#' :: f) from by
        simp [querySer, fragSer]]
      simp only []
      rw [List.takeWhile_append_of_pos hqall, List.dropWhile_append_of_pos hqall,
        List.takeWhile_cons_of_neg (by decide), List.dropWhile_cons_of_neg (by decide)]
      simp
  | none =>
    cases fr with
    | none => rfl
    | some f => rfl

/-- Round trip through serialization: a wellformed URL with a host
re-parses, recovering the scheme, host and port exactly, and when the path
is free of `?` and `#` the whole URL is recovered. -/
lemma parseList_serialize {u : Url} (hWF : u.WF) {h : List Char} (hh : u.host = some h) :
    ∃ v, Url.parseList u.serialize = some v ∧ v.scheme = u.scheme ∧ v.host = u.host ∧
      v.port = u.port ∧ (u.path.all pqfChar = true → v = u) := by
  obtain ⟨sch, ho, po, path, qu, fr⟩ := u
  obtain ⟨hsch, hhost, hport, hpath, hquery⟩ := hWF
  have hh' : ho = some h := hh
  subst hh'
  have hsch' : schemeOk sch = true := hsch
  obtain ⟨hne, hallhost⟩ := hhost h rfl
  have hpathshape : path = [] ∨ ∃ t, path = '/' :: t := hpath rfl
  have hport' : ∀ p, po = some p → p ≠ [] ∧ p.all Char.isDigit = true :=
    fun p hp => hport p hp
  have hquery' : ∀ q, qu = some q → q.all (fun c => c != '#') = true :=
    fun q hq => hquery q hq
  have hser : Url.serialize ⟨sch, some h, po, path, qu, fr⟩ =
      sch ++ ':' :: (('/' :: '/' :: (h ++ portSer po)) ++ path ++ querySer qu ++
        fragSer fr) := rfl
  rcases hpq : parsePQF (path ++ querySer qu ++ fragSer fr) with ⟨p1, q2, f2⟩
  have hbody : (('/' :: '/' :: (h ++ portSer po)) ++ path ++ querySer qu ++ fragSer fr) =
      '/' :: '/' :: ((h ++ portSer po) ++ (path ++ querySer qu ++ fragSer fr)) := by
    simp [List.append_assoc]
  refine ⟨⟨sch, some h, po, p1, q2, f2⟩, ?_, rfl, rfl, rfl, ?_⟩
  · rw [hser, parseList_scheme_prefix hsch', hbody]
    rw [show parseAfterScheme sch
        ('/' :: '/' :: ((h ++ portSer po) ++ (path ++ querySer qu ++ fragSer fr))) =
        parseAuthority sch ((h ++ portSer po) ++ (path ++ querySer qu ++ fragSer fr))
      from rfl]
    exact parseAuthority_split sch hne hallhost rfl hport'
      (tail3_shape hpathshape qu fr) hpq
  · intro hclean
    have := @parsePQF_clean path hclean qu fr hquery'
    rw [hpq] at this
    simp only [Prod.mk.injEq] at this
    obtain ⟨e1, e2, e3⟩ := this
    subst e1; subst e2; subst e3
    rfl

lemma set_path_path_shape (u : Url) (link : String) :
    ∃ t, (u.set_path link).path = '/' :: t := by
  simp only [Url.set_path]
  split
  · exact ⟨_, rfl⟩
  · exact ⟨_, rfl⟩

lemma set_path_WF {u : Url} (hWF : u.WF) (link : String) : (u.set_path link).WF := by
  obtain ⟨h1, h2, h3, h4, h5⟩ := hWF
  exact ⟨h1, h2, h3, fun _ => Or.inr (set_path_path_shape u link), h5⟩

lemma set_path_clean {link : String} (h : link.toList.all pqfChar = true) (u : Url) :
    (u.set_path link).path.all pqfChar = true := by
  simp only [Url.set_path]
  split
  · rename_i t heq
    rw [heq] at h
    exact h
  · simp only [List.all_cons, Bool.and_eq_true]
    exact ⟨by decide, h⟩

/-- The invariant of the anchor fold of `crawl`: if the threaded `url_parsed`
has host `host` and is wellformed, and every URL in the accumulator parses
back to host `host`, then the same holds after folding any anchor list. -/
lemma crawl_fold_invariant (host : String) (hrefs : List (Option String)) :
    ∀ (u0 : Url) (acc : List String),
      u0.host = some host.toList → u0.WF →
      (∀ s ∈ acc, ∃ v, Url.parse s = some v ∧ v.host = some host.toList) →
      ((hrefs.foldl (crawl_step host) (u0, acc)).1.host = some host.toList ∧
        (hrefs.foldl (crawl_step host) (u0, acc)).1.WF ∧
        (∀ s ∈ (hrefs.foldl (crawl_step host) (u0, acc)).2,
          ∃ v, Url.parse s = some v ∧ v.host = some host.toList)) := by
  induction hrefs with
  | nil => intro u0 acc h1 h2 h3; exact ⟨h1, h2, h3⟩
  | cons hd tl ih =>
    intro u0 acc h1 h2 h3
    rw [List.foldl_cons]
    cases hd with
    | none => exact ih u0 acc h1 h2 h3
    | some link =>
      cases hp : Url.parse link with
      | none =>
        have hstep : crawl_step host (u0, acc) (some link) =
            (u0.set_path link, insertSet acc (u0.set_path link).as_str) := by
          simp [crawl_step, process_href, hp]
        rw [hstep]
        have hsp : (u0.set_path link).host = some host.toList := h1
        apply ih
        · exact hsp
        · exact set_path_WF h2 link
        · intro s hs
          rcases mem_insertSet hs with hs | rfl
          · exact h3 s hs
          · rcases parseList_serialize (set_path_WF h2 link) hsp with ⟨v, hv, _, hvh, _⟩
            exact ⟨v, hv, by rw [hvh]; exact hsp⟩
      | some link_parsed =>
        cases hh : link_parsed.host with
        | none =>
          have hstep : crawl_step host (u0, acc) (some link) = (u0, acc) := by
            simp [crawl_step, process_href, hp, hh]
          rw [hstep]
          exact ih u0 acc h1 h2 h3
        | some hcs =>
          by_cases heq : host.data = hcs
          · have hstep : crawl_step host (u0, acc) (some link) =
                (u0, insertSet acc link_parsed.as_str) := by
              simp [crawl_step, process_href, hp, hh, heq]
            rw [hstep]
            apply ih u0 _ h1 h2
            intro s hs
            rcases mem_insertSet hs with hs | rfl
            · exact h3 s hs
            · have hlh : link_parsed.host = some host.toList := by
                rw [hh]
                exact congrArg some heq.symm
              rcases parseList_serialize (parseList_WF hp) hlh with ⟨v, hv, _, hvh, _⟩
              exact ⟨v, hv, by rw [hvh]; exact hlh⟩
          · have hstep : crawl_step host (u0, acc) (some link) = (u0, acc) := by
              simp [crawl_step, process_href, hp, hh, heq]
            rw [hstep]
            exact ih u0 acc h1 h2 h3

/-- C3: every URL string in a successful result of `crawl` parses to a URL
whose host is exactly the source's host `host`, and the store insert for a
host never touches any other host's stored set — links to a different
hostname are discarded before reaching any set. -/
theorem c3_crawl_hostname_isolation (host url : String) (page : Page) (u : Url)
    (res : List String) (hu : Url.parse url = some u) (hh : u.host = some host.toList)
    (hres : crawl host url page = some res) :
    (∀ s ∈ res, ∃ v, Url.parse s = some v ∧ v.host = some host.toList) ∧
    (∀ (master : Store) (S : List String) (hk hk' : String), hk' ≠ hk →
      (insert_unique_urls master S hk).2 hk' = master hk') := by
  constructor
  · obtain ⟨g, st, t, sel, hrefs⟩ := page
    cases g with
    | false => simp [crawl] at hres
    | true =>
      cases st with
      | false => simp [crawl, hu] at hres
      | true =>
        cases t with
        | false => simp [crawl, hu] at hres
        | true =>
          cases sel with
          | false => simp [crawl, hu] at hres
          | true =>
            simp only [crawl, hu, Bool.not_true, Bool.false_eq_true, if_false,
              Option.some.injEq] at hres
            subst hres
            intro s hs
            rcases mem_insertSet hs with hs | rfl
            · exact (crawl_fold_invariant host hrefs u [] hh
                (parseList_WF hu) (by intro s hs; exact absurd hs (List.not_mem_nil s))).2.2
                s hs
            · exact ⟨u, hu, hh⟩
  · intro master S hk hk' hne
    cases hm : master hk <;> simp [insert_unique_urls, hm, Store.set, hne]

/-- Closed witness for C3 on a concrete page with an absolute same-host
link, a relative link, a cross-host link and a host-less link. -/
theorem c3_crawl_hostname_isolation_witness :
    (∃ v, Url.parse "http://example.com/z" = some v ∧ v.host = some "example.com".toList) ∧
    (∃ v, Url.parse "http://example.com/c" = some v ∧ v.host = some "example.com".toList) ∧
    (∃ v, Url.parse "http://example.com/a/b" = some v ∧
      v.host = some "example.com".toList) := by
  have h := c3_crawl_hostname_isolation "example.com" "http://example.com/a/b"
    ⟨true, true, true, true,
      [some "http://example.com/z", some "c", some "http://other.com/x", none,
        some "mailto:me@x"]⟩
    ⟨"http".toList, some "example.com".toList, none, "/a/b".toList, none, none⟩
    ["http://example.com/z", "http://example.com/c", "http://example.com/a/b"]
    (by decide) (by decide) (by decide)
  exact ⟨h.1 _ (by decide), h.1 _ (by decide), h.1 _ (by decide)⟩

/-- C5: for source URL `http://example.com/a/b` and an anchor `href="c"`
(which fails absolute-URL parsing), the extractor replaces only the path,
producing exactly `http://example.com/c`; a `../d` href is likewise pasted
in unresolved, producing `http://example.com/../d`. -/
theorem c5_relative_resolution :
    crawl "example.com" "http://example.com/a/b" ⟨true, true, true, true, [some "c"]⟩ =
      some ["http://example.com/c", "http://example.com/a/b"] ∧
    crawl "example.com" "http://example.com/a/b" ⟨true, true, true, true, [some "../d"]⟩ =
      some ["http://example.com/../d", "http://example.com/a/b"] := by
  decide

/-- C9: when the source URL carries a query or fragment and an anchor href
fails absolute-URL parsing, the URL built by path replacement keeps the
source's query and fragment (and scheme, host, port) unchanged next to the
new path, and — for hrefs free of `?` and `#` — the emitted string parses
back to exactly that URL. -/
theorem c9_relative_keeps_query_fragment (s link : String) (u : Url) (host : String)
    (hs : Url.parse s = some u) (hqf : u.query ≠ none ∨ u.fragment ≠ none)
    (hl : Url.parse link = none) :
    process_href host u link = (some (u.set_path link).as_str, u.set_path link) ∧
    (u.set_path link).query = u.query ∧ (u.set_path link).fragment = u.fragment ∧
    (u.set_path link).host = u.host ∧ (u.set_path link).scheme = u.scheme ∧
    (u.set_path link).port = u.port ∧
    (∀ h, u.host = some h → link.toList.all pqfChar = true →
      Url.parse (u.set_path link).as_str = some (u.set_path link)) := by
  refine ⟨by simp [process_href, hl], rfl, rfl, rfl, rfl, rfl, ?_⟩
  intro h hh hclean
  have hWF := set_path_WF (parseList_WF hs) link
  have hsp : (u.set_path link).host = some h := hh
  rcases parseList_serialize hWF hsp with ⟨v, hv, _, _, _, hcleanv⟩
  rw [show Url.parse (u.set_path link).as_str = Url.parseList (u.set_path link).serialize
    from rfl, hv, hcleanv (set_path_clean hclean u)]

/-- Closed witness for C9 at `http://example.com/a/b?q=1#frag` and href `c`. -/
theorem c9_relative_keeps_query_fragment_witness :
    (Url.set_path ⟨"http".toList, some "example.com".toList, none, "/a/b".toList,
        some "q=1".toList, some "frag".toList⟩ "c").query = some "q=1".toList ∧
    Url.parse (Url.set_path ⟨"http".toList, some "example.com".toList, none, "/a/b".toList,
        some "q=1".toList, some "frag".toList⟩ "c").as_str =
      some (Url.set_path ⟨"http".toList, some "example.com".toList, none, "/a/b".toList,
        some "q=1".toList, some "frag".toList⟩ "c") := by
  have h := c9_relative_keeps_query_fragment "http://example.com/a/b?q=1#frag" "c"
    ⟨"http".toList, some "example.com".toList, none, "/a/b".toList, some "q=1".toList,
      some "frag".toList⟩
    "example.com" (by decide) (Or.inl (by simp)) (by decide)
  exact ⟨h.2.1, h.2.2.2.2.2.2 "example.com".toList rfl (by decide)⟩

/-- C10: an href that parses as an absolute URL with no host component (for
example a `mailto:` URL) is discarded entirely by the extractor — not kept
and not treated as a relative path — so a page whose only anchor is such a
link contributes nothing but the fetched URL itself. -/
theorem c10_hostless_absolute_discarded (host url link : String) (up lu : Url)
    (hl : Url.parse link = some lu) (hh : lu.host = none) :
    process_href host up link = (none, up) ∧
    (∀ (u0 : Url), Url.parse url = some u0 →
      crawl host url ⟨true, true, true, true, [some link]⟩ = some [url]) := by
  constructor
  · simp [process_href, hl, hh]
  · intro u0 hu0
    have hstep : crawl_step host (u0, []) (some link) = (u0, []) := by
      simp [crawl_step, process_href, hl, hh]
    simp [crawl, hu0, hstep, insertSet]

/-- Closed witness for C10 with a `mailto:` href. -/
theorem c10_hostless_absolute_discarded_witness :
    process_href "example.com"
        ⟨"http".toList, some "example.com".toList, none, [], none, none⟩
        "mailto:me@x.org" =
      (none, ⟨"http".toList, some "example.com".toList, none, [], none, none⟩) ∧
    crawl "example.com" "http://example.com" ⟨true, true, true, true, [some "mailto:me@x.org"]⟩ =
      some ["http://example.com"] := by
  have h := c10_hostless_absolute_discarded "example.com" "http://example.com" "mailto:me@x.org"
    ⟨"http".toList, some "example.com".toList, none, [], none, none⟩
    ⟨"mailto".toList, none, none, "me@x.org".toList, none, none⟩
    (by decide) rfl
  exact ⟨h.1, h.2 ⟨"http".toList, some "example.com".toList, none, [], none, none⟩ (by decide)⟩

/-- The fetch world of the end-to-end scenario: fetching the seed
`http://example.com` succeeds with anchors to `http://example.com/page1`
(twice) and `http://other.com/x`; fetching anything else fails. -/
def c4World : String → Page := fun u =>
  if u = "http://example.com" then
    ⟨true, true, true, true,
      [some "http://example.com/page1", some "http://example.com/page1",
        some "http://other.com/x"]⟩
  else ⟨false, false, false, false, []⟩

/-- The `crawl` oracle induced by `c4World` for host `example.com`. -/
def c4Oracle : Nat → String → Option (List String) := fun _ u =>
  crawl "example.com" u (c4World u)

/-- The store after the intake loop processes the submission
`http://example.com` against `c4World`, starting from the empty store. -/
def c4Final : Store := listen_step c4Oracle (fun _ => none) (some "http://example.com")

/-- C4: after submitting `http://example.com` whose body links to
`http://example.com/page1` (twice) and `http://other.com/x`, the store lists
exactly `http://example.com` and `http://example.com/page1` for
`example.com` (count 2), and `other.com` is unseen (count 0). -/
theorem c4_end_to_end_scenario :
    (∀ x, x ∈ Store.list c4Final "example.com" ↔
      x = "http://example.com" ∨ x = "http://example.com/page1") ∧
    Store.count c4Final "example.com" = 2 ∧
    Store.count c4Final "other.com" = 0 := by
  refine ⟨?_, by decide, by decide⟩
  intro x
  rw [show Store.list c4Final "example.com" =
    ["http://example.com/page1", "http://example.com"] from by decide]
  simp [List.mem_cons]
  tauto

end LinkCrawler
